import Mathlib

/-!
Verification of the screenshot-renaming pipeline in `src/main.py`.

Text is modelled as `List Nat` (Unicode code points, ASCII fragment).
Python's `str.lower`, the regex classes `\w`, `\s`, `\d` and `.` are modelled
by arithmetic predicates on code points; filesystem paths are code-point
lists and the set of existing paths is a `List (List Nat)`.
-/

/-- Code points of a string literal (used to write concrete inputs). -/
def codes (s : String) : List Nat := s.toList.map Char.toNat

/-- Model of the regex class `\w` (ASCII): letters, digits or underscore. -/
def isWordCode (c : Nat) : Bool :=
  decide ((97 ≤ c ∧ c ≤ 122) ∨ (65 ≤ c ∧ c ≤ 90) ∨ (48 ≤ c ∧ c ≤ 57) ∨ c = 95)

/-- Model of the regex class `\s` (ASCII whitespace, as `str.split` uses). -/
def isSpaceCode (c : Nat) : Bool :=
  decide (c = 32 ∨ c = 9 ∨ c = 10 ∨ c = 13 ∨ c = 11 ∨ c = 12)

/-- Model of the regex class `\d` (ASCII digits). -/
def isDigitCode (c : Nat) : Bool := decide (48 ≤ c ∧ c ≤ 57)

/-- A lowercase letter, a digit, or an underscore. -/
def isLowerWordCode (c : Nat) : Bool :=
  decide ((97 ≤ c ∧ c ≤ 122) ∨ (48 ≤ c ∧ c ≤ 57) ∨ c = 95)

/-- Model of Python `str.lower` on one code point (ASCII fragment). -/
def pyLower (c : Nat) : Nat := if 65 ≤ c ∧ c ≤ 90 then c + 32 else c

/-- Model of Python `str.split()` (split on whitespace runs, no empty
tokens), written as the source's left-to-right scan with an accumulator. -/
def splitWSAux : List Nat → List Nat → List (List Nat)
  | [], acc => if acc = [] then [] else [acc]
  | c :: cs, acc =>
    if isSpaceCode c then
      (if acc = [] then splitWSAux cs [] else acc :: splitWSAux cs [])
    else splitWSAux cs (acc ++ [c])

/-- Model of Python `str.split()` with no argument. -/
def splitWS (l : List Nat) : List (List Nat) := splitWSAux l []

/-- Model of Python `"_".join`. -/
def joinU : List (List Nat) → List Nat
  | [] => []
  | [t] => t
  | t :: t' :: ts => t ++ 95 :: joinU (t' :: ts)

/-- The fixed stop-word set of `get_ai_filename` (src/main.py line 114). -/
def stop_words : List (List Nat) :=
  [codes "a", codes "an", codes "the", codes "image", codes "of",
   codes "screenshot", codes "showing", codes "with", codes "is",
   codes "in", codes "on", codes "at", codes "to", codes "this"]

/-- Line 110: `clean = re.sub(r'[^\w\s]', '', description.lower())` —
lowercase, then delete every code point that is neither `\w` nor `\s`. -/
def cleanDescription (d : List Nat) : List Nat :=
  (d.map pyLower).filter (fun c => isWordCode c || isSpaceCode c)

/-- Line 112: `words = clean.split()`. -/
def descWords (d : List Nat) : List (List Nat) := splitWS (cleanDescription d)

/-- Line 115: `keywords = [w for w in words if w not in stop_words]`. -/
def keywordsOf (d : List Nat) : List (List Nat) :=
  (descWords d).filter (fun w => !(stop_words.contains w))

/-- Line 118: `final_words = keywords[:4] if keywords else words[:4]`. -/
def final_words (d : List Nat) : List (List Nat) :=
  if keywordsOf d = [] then (descWords d).take 4 else (keywordsOf d).take 4

/-- Line 121: `clean_name = "_".join(final_words)`. -/
def clean_name (d : List Nat) : List Nat := joinU (final_words d)

/-- The sanitization performed by `get_ai_filename` (src/main.py lines
108-123) on the description text returned by the inference service; the
inference call itself is external, so the description `d` is the input.
Line 123: `return clean_name if clean_name else "unknown_screenshot"`. -/
def get_ai_filename (d : List Nat) : List Nat :=
  if clean_name d = [] then codes "unknown_screenshot" else clean_name d

example : get_ai_filename (codes "A red apple on a table") =
    codes "red_apple_table" := by decide

example : get_ai_filename (codes "!!! ??? ...") =
    codes "unknown_screenshot" := by decide

example : get_ai_filename (codes "the image of a screenshot") =
    codes "the_image_of_a" := by decide

example : get_ai_filename (codes "foo_bar") = codes "foo_bar" := by decide

/-! ### Basic lemmas about the tokenizer and the joiner -/

theorem splitWSAux_token_ne_nil (l : List Nat) :
    ∀ (acc t : List Nat), t ∈ splitWSAux l acc → t ≠ [] := by
  induction l with
  | nil =>
    intro acc t ht
    simp only [splitWSAux] at ht
    split at ht
    · simp at ht
    · rename_i hacc
      simp only [List.mem_singleton] at ht
      exact ht ▸ hacc
  | cons c cs ih =>
    intro acc t ht
    simp only [splitWSAux] at ht
    split at ht
    · split at ht
      · exact ih [] t ht
      · rename_i hacc
        rcases List.mem_cons.mp ht with h | h
        · exact h ▸ hacc
        · exact ih [] t h
    · exact ih (acc ++ [c]) t ht

theorem splitWSAux_token_chars (l : List Nat) :
    ∀ (acc t : List Nat) (c : Nat), t ∈ splitWSAux l acc → c ∈ t →
      c ∈ acc ∨ (c ∈ l ∧ isSpaceCode c = false) := by
  induction l with
  | nil =>
    intro acc t c ht hc
    simp only [splitWSAux] at ht
    split at ht
    · simp at ht
    · simp only [List.mem_singleton] at ht
      exact Or.inl (ht ▸ hc)
  | cons a cs ih =>
    intro acc t c ht hc
    simp only [splitWSAux] at ht
    split at ht
    · rename_i ha
      have step : c ∈ ([] : List Nat) ∨ (c ∈ cs ∧ isSpaceCode c = false) →
          c ∈ acc ∨ (c ∈ a :: cs ∧ isSpaceCode c = false) := by
        rintro (h | ⟨h1, h2⟩)
        · simp at h
        · exact Or.inr ⟨List.mem_cons_of_mem a h1, h2⟩
      split at ht
      · exact step (ih [] t c ht hc)
      · rcases List.mem_cons.mp ht with h | h
        · exact Or.inl (h ▸ hc)
        · exact step (ih [] t c h hc)
    · rename_i ha
      rcases ih (acc ++ [a]) t c ht hc with h | ⟨h1, h2⟩
      · rcases List.mem_append.mp h with h' | h'
        · exact Or.inl h'
        · simp only [List.mem_singleton] at h'
          refine Or.inr ⟨h' ▸ List.mem_cons_self a cs, ?_⟩
          subst h'
          exact Bool.not_eq_true _ ▸ ha
      · exact Or.inr ⟨List.mem_cons_of_mem a h1, h2⟩

theorem splitWSAux_no_space (l : List Nat) :
    ∀ acc : List Nat, (∀ c ∈ l, isSpaceCode c = false) →
      splitWSAux l acc = if acc ++ l = [] then [] else [acc ++ l] := by
  induction l with
  | nil => intro acc h; simp [splitWSAux]
  | cons a cs ih =>
    intro acc h
    have ha : isSpaceCode a = false := h a (List.mem_cons_self a cs)
    have hcs : ∀ c ∈ cs, isSpaceCode c = false :=
      fun c hc => h c (List.mem_cons_of_mem a hc)
    simp only [splitWSAux, ha]
    rw [if_neg (by simp), ih (acc ++ [a]) hcs]
    have hne1 : acc ++ a :: cs ≠ [] := by simp
    have hne2 : (acc ++ [a]) ++ cs ≠ [] := by simp
    rw [if_neg hne2, if_neg (by simp)]
    simp

theorem mem_joinU (ts : List (List Nat)) :
    ∀ c : Nat, c ∈ joinU ts → c = 95 ∨ ∃ t ∈ ts, c ∈ t := by
  induction ts with
  | nil => intro c hc; simp [joinU] at hc
  | cons t ts ih =>
    intro c hc
    cases ts with
    | nil =>
      simp only [joinU] at hc
      exact Or.inr ⟨t, List.mem_singleton.mpr rfl, hc⟩
    | cons t' ts' =>
      simp only [joinU] at hc
      rcases List.mem_append.mp hc with h | h
      · exact Or.inr ⟨t, List.mem_cons_self _ _, h⟩
      · rcases List.mem_cons.mp h with h' | h'
        · exact Or.inl h'
        · rcases ih c h' with h'' | ⟨u, hu, hcu⟩
          · exact Or.inl h''
          · exact Or.inr ⟨u, List.mem_cons_of_mem _ hu, hcu⟩

theorem joinU_eq_intercalate (ts : List (List Nat)) :
    joinU ts = List.intercalate [95] ts := by
  induction ts with
  | nil => simp [joinU, List.intercalate]
  | cons t ts ih =>
    cases ts with
    | nil => simp [joinU, List.intercalate]
    | cons t' ts' =>
      simp only [joinU, List.intercalate, List.intersperse_cons₂,
        List.flatten_cons] at ih ⊢
      rw [ih]
      simp

/-! ### The tokenizer agrees with a whitespace-splitting written from the
spec's words ("split on whitespace into tokens", adjacent separators
producing no tokens). -/

/-- Splitting on whitespace, written independently of the source's scan:
split at every whitespace code point and drop the empty pieces. -/
def wordsSpec (l : List Nat) : List (List Nat) :=
  (l.splitOnP isSpaceCode).filter (fun t => !t.isEmpty)

theorem splitWSAux_eq_splitOnP (l : List Nat) :
    ∀ acc : List Nat, splitWSAux l acc =
      ((l.splitOnP isSpaceCode).modifyHead (acc ++ ·)).filter (fun t => !t.isEmpty) := by
  induction l with
  | nil =>
    intro acc
    simp only [splitWSAux, List.splitOnP_nil, List.modifyHead_cons, List.append_nil]
    by_cases hacc : acc = []
    · subst hacc; simp
    · rw [if_neg hacc, List.filter_cons]
      have : (!acc.isEmpty) = true := by simpa [List.isEmpty_iff] using hacc
      rw [if_pos this]
      simp
  | cons a cs ih =>
    intro acc
    rw [List.splitOnP_cons]
    simp only [splitWSAux]
    by_cases ha : isSpaceCode a
    · rw [if_pos ha, if_pos ha]
      simp only [List.modifyHead_cons, List.append_nil]
      have hrest : splitWSAux cs [] =
          (cs.splitOnP isSpaceCode).filter (fun t => !t.isEmpty) := by
        rw [ih []]
        congr 1
        cases cs.splitOnP isSpaceCode with
        | nil => rfl
        | cons h t => simp
      by_cases hacc : acc = []
      · subst hacc
        simp only [if_pos rfl]
        rw [List.filter_cons]
        simp [hrest]
      · rw [if_neg hacc, List.filter_cons]
        have : (!acc.isEmpty) = true := by simpa [List.isEmpty_iff] using hacc
        rw [if_pos this, hrest]
    · rw [if_neg ha, if_neg (by simpa using ha)]
      rw [ih (acc ++ [a])]
      congr 1
      cases cs.splitOnP isSpaceCode with
      | nil => rfl
      | cons h t => simp

theorem splitWS_eq_wordsSpec (l : List Nat) : splitWS l = wordsSpec l := by
  rw [splitWS, wordsSpec, splitWSAux_eq_splitOnP l []]
  congr 1
  cases l.splitOnP isSpaceCode with
  | nil => rfl
  | cons h t => simp

/-! ### Character-level facts about the sanitizer's output -/

/-- An ASCII alphanumeric code point (the claim's character class). -/
def isAlnumCode (c : Nat) : Bool :=
  decide ((97 ≤ c ∧ c ≤ 122) ∨ (65 ≤ c ∧ c ≤ 90) ∨ (48 ≤ c ∧ c ≤ 57))

theorem pyLower_word (c : Nat) :
    isWordCode (pyLower c) = true → isLowerWordCode (pyLower c) = true := by
  simp only [pyLower]
  split <;> · simp only [isWordCode, isLowerWordCode, decide_eq_true_eq]; omega

theorem lowerWord_not_space (c : Nat) :
    isLowerWordCode c = true → isSpaceCode c = false := by
  simp only [isLowerWordCode, isSpaceCode, decide_eq_true_eq,
    decide_eq_false_iff_not]
  omega

theorem cleanDescription_chars (d : List Nat) (c : Nat)
    (hc : c ∈ cleanDescription d) :
    isLowerWordCode c = true ∨ isSpaceCode c = true := by
  rw [cleanDescription] at hc
  have hmem := List.mem_of_mem_filter hc
  have hp := List.of_mem_filter hc
  rcases List.mem_map.mp hmem with ⟨c₀, _, rfl⟩
  rcases Bool.or_eq_true_iff.mp hp with h | h
  · exact Or.inl (pyLower_word c₀ h)
  · exact Or.inr h

theorem descWords_chars (d : List Nat) (t : List Nat) (c : Nat)
    (ht : t ∈ descWords d) (hc : c ∈ t) : isLowerWordCode c = true := by
  rcases splitWSAux_token_chars (cleanDescription d) [] t c ht hc with h | ⟨h1, h2⟩
  · simp at h
  · rcases cleanDescription_chars d c h1 with h | h
    · exact h
    · rw [h] at h2; cases h2

theorem final_words_sub (d : List Nat) (t : List Nat)
    (ht : t ∈ final_words d) : t ∈ descWords d := by
  rw [final_words] at ht
  split at ht
  · exact List.mem_of_mem_take ht
  · exact List.mem_of_mem_filter (List.mem_of_mem_take ht)

theorem get_ai_filename_chars (d : List Nat) (c : Nat)
    (hc : c ∈ get_ai_filename d) : isLowerWordCode c = true := by
  rw [get_ai_filename] at hc
  split at hc
  · revert hc
    have : ∀ c ∈ codes "unknown_screenshot", isLowerWordCode c = true := by decide
    exact this c
  · rcases mem_joinU (final_words d) c hc with h | ⟨t, ht, hct⟩
    · subst h; decide
    · exact descWords_chars d t c (final_words_sub d t ht) hct

/-! ### Claim C6: totality and non-emptiness of the sanitizer -/

/-- Claim C6: for every input string — including the empty string and
strings with no alphanumeric characters — the sanitizer returns a
non-empty name, and it returns the fixed fallback literal exactly in the
case that the underscore-joined result would otherwise be empty (the
shallow embedding is a total function, so no exception is possible). -/
theorem c6_sanitizer_total (d : List Nat) :
    get_ai_filename d ≠ [] ∧
    get_ai_filename d =
      (if clean_name d = [] then codes "unknown_screenshot" else clean_name d) ∧
    get_ai_filename (codes "!!! ??? ...") = codes "unknown_screenshot" ∧
    get_ai_filename (codes "") = codes "unknown_screenshot" := by
  refine ⟨?_, rfl, by decide, by decide⟩
  rw [get_ai_filename]
  split
  · decide
  · assumption

/-! ### Claim C2: the sanitizer against the reference algorithm -/

/-- The claim's reference algorithm, written from the spec's words:
lowercase, strip every character that is not **alphanumeric** or
whitespace, split on whitespace, remove stop words, take the first 4
remaining tokens (first 4 unfiltered tokens if none remain), join with
underscores (falling back to the fixed literal when empty). -/
def sanitizeSpec (d : List Nat) : List Nat :=
  let tokens := wordsSpec ((d.map pyLower).filter (fun c => isAlnumCode c || isSpaceCode c))
  let kept := tokens.filter (fun w => !(stop_words.contains w))
  let chosen := if kept = [] then tokens.take 4 else kept.take 4
  let name := List.intercalate [95] chosen
  if name = [] then codes "unknown_screenshot" else name

/-- The amended reference algorithm: identical to `sanitizeSpec` except
that the stripping step keeps word characters (alphanumeric **or
underscore**), matching the source's `[^\w\s]` character class. -/
def sanitizeSpecAmended (d : List Nat) : List Nat :=
  let tokens := wordsSpec ((d.map pyLower).filter (fun c => isWordCode c || isSpaceCode c))
  let kept := tokens.filter (fun w => !(stop_words.contains w))
  let chosen := if kept = [] then tokens.take 4 else kept.take 4
  let name := List.intercalate [95] chosen
  if name = [] then codes "unknown_screenshot" else name

/-- Claim C2 as stated is false: the source's character class `[^\w\s]`
keeps underscores, so on the description "foo_bar" the code returns
"foo_bar" while the claim's reference algorithm (strip everything that is
not alphanumeric or whitespace) returns "foobar"; moreover the output then
contains a non-alphanumeric character (the underscore, code 95). -/
theorem c2_underscore_counterexample :
    get_ai_filename (codes "foo_bar") ≠ sanitizeSpec (codes "foo_bar") ∧
    get_ai_filename (codes "foo_bar") = codes "foo_bar" ∧
    sanitizeSpec (codes "foo_bar") = codes "foobar" ∧
    95 ∈ get_ai_filename (codes "foo_bar") ∧ isAlnumCode 95 = false := by
  refine ⟨by decide, by decide, by decide, by decide, by decide⟩

/-- Claim C2 amended: the sanitizer equals the reference algorithm in
which the stripping step keeps word characters (alphanumeric or
underscore), and every code point of the output is a lowercase letter, a
digit, or an underscore. -/
theorem c2_sanitizer_amended (d : List Nat) :
    get_ai_filename d = sanitizeSpecAmended d ∧
    ∀ c ∈ get_ai_filename d, isLowerWordCode c = true := by
  constructor
  · have h1 : descWords d =
        wordsSpec ((d.map pyLower).filter (fun c => isWordCode c || isSpaceCode c)) := by
      rw [descWords, cleanDescription, splitWS_eq_wordsSpec]
    simp only [get_ai_filename, clean_name, final_words, keywordsOf,
      sanitizeSpecAmended, joinU_eq_intercalate, h1]
  · exact fun c hc => get_ai_filename_chars d c hc

/-! ### Claim C9: the sanitizer on its own output -/

theorem map_id_of_mem {f : Nat → Nat} (l : List Nat)
    (h : ∀ c ∈ l, f c = c) : l.map f = l := by
  induction l with
  | nil => rfl
  | cons a t ih =>
    rw [List.map_cons, h a (List.mem_cons_self a t),
      ih fun c hc => h c (List.mem_cons_of_mem a hc)]

/-- Claim C9: applying the sanitizer to its own output yields exactly the
same name (equality, the stronger branch of "equal to or a truncation
of"), and that name is built from at most 4 tokens. -/
theorem c9_sanitizer_idempotent (d : List Nat) :
    get_ai_filename (get_ai_filename d) = get_ai_filename d ∧
    (final_words (get_ai_filename d)).length ≤ 4 := by
  set s := get_ai_filename d with hs
  have hne : s ≠ [] := (c6_sanitizer_total d).1
  have hchars : ∀ c ∈ s, isLowerWordCode c = true :=
    fun c hc => get_ai_filename_chars d c hc
  have hclean : cleanDescription s = s := by
    rw [cleanDescription]
    rw [map_id_of_mem s (fun c hc => ?_), List.filter_eq_self.mpr (fun c hc => ?_)]
    · have := hchars c hc
      simp only [isLowerWordCode, decide_eq_true_eq] at this
      rw [Bool.or_eq_true_iff]
      left
      simp only [isWordCode, decide_eq_true_eq]
      omega
    · have := hchars c hc
      simp only [isLowerWordCode, decide_eq_true_eq] at this
      rw [pyLower, if_neg (by omega)]
  have hwords : descWords s = [s] := by
    rw [descWords, hclean, splitWS,
      splitWSAux_no_space s [] (fun c hc => lowerWord_not_space c (hchars c hc))]
    simp [hne]
  have hkw : keywordsOf s = (if stop_words.contains s then [] else [s]) := by
    rw [keywordsOf, hwords, List.filter_cons, List.filter_nil]
    by_cases hstop : stop_words.contains s
    · simp [hstop]
    · simp [hstop]
  have hfinal : final_words s = [s] := by
    rw [final_words, hkw, hwords]
    by_cases hstop : s ∈ stop_words
    · have hc : stop_words.contains s = true := List.elem_iff.mpr hstop
      simp [hc]
      exact fun h => absurd hstop h
    · have hc : stop_words.contains s = false := by
        rw [← Bool.not_eq_true]
        exact fun h => hstop (List.elem_iff.mp h)
      simp [hc, hstop]
  refine ⟨?_, by rw [hfinal]; simp⟩
  rw [get_ai_filename, clean_name, hfinal]
  have hjoin : joinU [s] = s := rfl
  rw [hjoin, if_neg hne]

/-! ### The filename matcher

`SCREENSHOT_PATTERN = re.compile(r"Screenshot \d{4}-\d{2}-\d{2}.*\.png")`
(src/main.py line 14), used with `re.match` (anchored at the start only)
in `check_and_process` (line 39).  The regex is embedded as an executable
prefix matcher: the literal, the digit groups, and then a scan for an
occurrence of ".png" preceded only by non-newline characters (`.` does
not match a newline). -/

/-- Consume an exact literal from the front of the input. -/
def takeLit : List Nat → List Nat → Option (List Nat)
  | [], s => some s
  | _ :: _, [] => none
  | p :: ps, c :: cs => if c = p then takeLit ps cs else none

/-- Consume exactly `n` digit code points from the front of the input. -/
def takeDigits : Nat → List Nat → Option (List Nat)
  | 0, s => some s
  | _ + 1, [] => none
  | n + 1, c :: cs => if isDigitCode c then takeDigits n cs else none

/-- The `.*\.png` tail of the pattern: scan forward over non-newline
code points looking for an occurrence of ".png". -/
def dotStarPng : List Nat → Bool
  | [] => false
  | c :: cs =>
    if (codes ".png").isPrefixOf (c :: cs) then true
    else if c = 10 then false else dotStarPng cs

/-- The anchored literal-and-date part `Screenshot \d{4}-\d{2}-\d{2}`. -/
def afterDate (s : List Nat) : Option (List Nat) :=
  (((((takeLit (codes "Screenshot ") s).bind (takeDigits 4)).bind
    (takeLit [45])).bind (takeDigits 2)).bind (takeLit [45])).bind (takeDigits 2)

/-- `SCREENSHOT_PATTERN.match(filename)` viewed as a boolean, as
`check_and_process` uses it. -/
def screenshotMatch (s : List Nat) : Bool :=
  match afterDate s with
  | none => false
  | some r => dotStarPng r

/-- The claim's reading of the matcher: the fixed image extension must
terminate the string (arbitrary trailing characters before it). -/
def claimMatch (s : List Nat) : Bool :=
  match afterDate s with
  | none => false
  | some r => (codes ".png").isSuffixOf r

theorem takeLit_eq_some (pat : List Nat) :
    ∀ s r : List Nat, takeLit pat s = some r ↔ s = pat ++ r := by
  induction pat with
  | nil => intro s r; simp [takeLit]
  | cons p ps ih =>
    intro s r
    cases s with
    | nil => simp [takeLit]
    | cons c cs =>
      simp only [takeLit, List.cons_append]
      split
      · rename_i hcp
        subst hcp
        rw [ih cs r]
        constructor
        · exact fun h => by rw [← h]
        · exact fun h => (List.cons.injEq _ _ _ _).mp h |>.2
      · rename_i hcp
        constructor
        · intro h; cases h
        · intro h
          exact absurd ((List.cons.injEq _ _ _ _).mp h).1 hcp

theorem takeDigits_eq_some (n : Nat) :
    ∀ s r : List Nat, takeDigits n s = some r ↔
      ∃ d : List Nat, s = d ++ r ∧ d.length = n ∧ ∀ c ∈ d, isDigitCode c = true := by
  induction n with
  | zero =>
    intro s r
    simp only [takeDigits, Option.some.injEq]
    constructor
    · intro h; exact ⟨[], by simp [h], rfl, by simp⟩
    · rintro ⟨d, hd, hlen, _⟩
      rw [List.length_eq_zero] at hlen
      subst hlen
      simp at hd
      exact hd
  | succ n ih =>
    intro s r
    cases s with
    | nil =>
      simp only [takeDigits]
      constructor
      · intro h; cases h
      · rintro ⟨d, hd, hlen, _⟩
        cases d with
        | nil => simp at hlen
        | cons a t => simp at hd
    | cons c cs =>
      simp only [takeDigits]
      split
      · rename_i hdig
        rw [ih cs r]
        constructor
        · rintro ⟨d, hd, hlen, hdigs⟩
          refine ⟨c :: d, by simp [hd], by simp [hlen], ?_⟩
          intro x hx
          rcases List.mem_cons.mp hx with h | h
          · exact h ▸ hdig
          · exact hdigs x h
        · rintro ⟨d, hd, hlen, hdigs⟩
          cases d with
          | nil => simp at hlen
          | cons a t =>
            obtain ⟨hac, hcs⟩ := (List.cons.injEq _ _ _ _).mp hd
            refine ⟨t, hcs, by simpa using hlen, ?_⟩
            exact fun x hx => hdigs x (List.mem_cons_of_mem a hx)
      · rename_i hdig
        constructor
        · intro h; cases h
        · rintro ⟨d, hd, hlen, hdigs⟩
          cases d with
          | nil => simp at hlen
          | cons a t =>
            obtain ⟨hac, _⟩ := (List.cons.injEq _ _ _ _).mp hd
            exact absurd (hac ▸ hdigs a (List.mem_cons_self a t)) hdig

theorem isPrefixOf_iff_append (l₁ : List Nat) :
    ∀ l₂ : List Nat, l₁.isPrefixOf l₂ = true ↔ ∃ t, l₂ = l₁ ++ t := by
  induction l₁ with
  | nil => intro l₂; simp [List.isPrefixOf]
  | cons a as ih =>
    intro l₂
    cases l₂ with
    | nil =>
      simp only [List.isPrefixOf]
      constructor
      · intro h; cases h
      · rintro ⟨t, ht⟩; simp at ht
    | cons b bs =>
      simp only [List.isPrefixOf, Bool.and_eq_true, beq_iff_eq, ih bs,
        List.cons_append]
      constructor
      · rintro ⟨rfl, t, rfl⟩; exact ⟨t, rfl⟩
      · rintro ⟨t, ht⟩
        obtain ⟨h1, h2⟩ := (List.cons.injEq _ _ _ _).mp ht
        exact ⟨h1.symm, t, h2⟩

theorem dotStarPng_iff (l : List Nat) :
    dotStarPng l = true ↔
      ∃ mid rest : List Nat, l = mid ++ codes ".png" ++ rest ∧
        ∀ c ∈ mid, c ≠ 10 := by
  induction l with
  | nil =>
    simp only [dotStarPng]
    constructor
    · intro h; cases h
    · rintro ⟨mid, rest, h, _⟩
      have := congrArg List.length h
      simp [codes] at this
      omega
  | cons c cs ih =>
    simp only [dotStarPng]
    split
    · rename_i hp
      rcases (isPrefixOf_iff_append _ _).mp hp with ⟨t, ht⟩
      simp only [true_iff]
      exact ⟨[], t, by simpa using ht, by simp⟩
    · rename_i hp
      split
      · rename_i hc
        subst hc
        constructor
        · intro h; cases h
        · rintro ⟨mid, rest, h, hmid⟩
          cases mid with
          | nil =>
            exact absurd ((isPrefixOf_iff_append _ _).mpr ⟨rest, by simpa using h⟩) hp
          | cons m ms =>
            obtain ⟨h1, _⟩ := (List.cons.injEq _ _ _ _).mp (by simpa using h)
            exact absurd h1.symm (hmid m (List.mem_cons_self _ _))
      · rename_i hc
        rw [ih]
        constructor
        · rintro ⟨mid, rest, h, hmid⟩
          refine ⟨c :: mid, rest, by simp [h], ?_⟩
          intro x hx
          rcases List.mem_cons.mp hx with h' | h'
          · exact h' ▸ hc
          · exact hmid x h'
        · rintro ⟨mid, rest, h, hmid⟩
          cases mid with
          | nil =>
            exact absurd ((isPrefixOf_iff_append _ _).mpr ⟨rest, by simpa using h⟩) hp
          | cons m ms =>
            obtain ⟨h1, h2⟩ := (List.cons.injEq _ _ _ _).mp (by simpa using h)
            exact ⟨ms, rest, by rw [h2, List.append_assoc],
              fun x hx => hmid x (h1 ▸ List.mem_cons_of_mem m hx)⟩

theorem afterDate_eq_some (s r : List Nat) :
    afterDate s = some r ↔
      ∃ d1 d2 d3 : List Nat,
        s = codes "Screenshot " ++ (d1 ++ ([45] ++ (d2 ++ ([45] ++ (d3 ++ r))))) ∧
        d1.length = 4 ∧ d2.length = 2 ∧ d3.length = 2 ∧
        (∀ c ∈ d1, isDigitCode c = true) ∧ (∀ c ∈ d2, isDigitCode c = true) ∧
        (∀ c ∈ d3, isDigitCode c = true) := by
  rw [afterDate]
  simp only [Option.bind_eq_some]
  constructor
  · rintro ⟨a5, ⟨a4, ⟨a3, ⟨a2, ⟨a1, h1, h2⟩, h3⟩, h4⟩, h5⟩, h6⟩
    rw [takeLit_eq_some] at h1 h3 h5
    rcases (takeDigits_eq_some _ _ _).mp h2 with ⟨d1, hd1, hl1, hg1⟩
    rcases (takeDigits_eq_some _ _ _).mp h4 with ⟨d2, hd2, hl2, hg2⟩
    rcases (takeDigits_eq_some _ _ _).mp h6 with ⟨d3, hd3, hl3, hg3⟩
    refine ⟨d1, d2, d3, ?_, hl1, hl2, hl3, hg1, hg2, hg3⟩
    rw [h1, hd1, h3, hd2, h5, hd3]
  · rintro ⟨d1, d2, d3, rfl, hl1, hl2, hl3, hg1, hg2, hg3⟩
    have h6 : takeDigits 2 (d3 ++ r) = some r :=
      (takeDigits_eq_some _ _ _).mpr ⟨d3, rfl, hl3, hg3⟩
    have h5 : takeLit [45] ([45] ++ (d3 ++ r)) = some (d3 ++ r) :=
      (takeLit_eq_some _ _ _).mpr rfl
    have h4 : takeDigits 2 (d2 ++ ([45] ++ (d3 ++ r))) = some ([45] ++ (d3 ++ r)) :=
      (takeDigits_eq_some _ _ _).mpr ⟨d2, rfl, hl2, hg2⟩
    have h3 : takeLit [45] ([45] ++ (d2 ++ ([45] ++ (d3 ++ r)))) =
        some (d2 ++ ([45] ++ (d3 ++ r))) :=
      (takeLit_eq_some _ _ _).mpr rfl
    have h2 : takeDigits 4 (d1 ++ ([45] ++ (d2 ++ ([45] ++ (d3 ++ r))))) =
        some ([45] ++ (d2 ++ ([45] ++ (d3 ++ r)))) :=
      (takeDigits_eq_some _ _ _).mpr ⟨d1, rfl, hl1, hg1⟩
    have h1 : takeLit (codes "Screenshot ")
        (codes "Screenshot " ++ (d1 ++ ([45] ++ (d2 ++ ([45] ++ (d3 ++ r)))))) =
        some (d1 ++ ([45] ++ (d2 ++ ([45] ++ (d3 ++ r))))) :=
      (takeLit_eq_some _ _ _).mpr rfl
    exact ⟨_, ⟨_, ⟨_, ⟨_, ⟨_, h1, h2⟩, h3⟩, h4⟩, h5⟩, h6⟩

/-- The claim's reading of the matcher, declaratively: the string must
consist of the literal, the date, arbitrary trailing characters, and the
extension ".png" terminating the string. -/
theorem claimMatch_iff (s : List Nat) :
    claimMatch s = true ↔
      ∃ d1 d2 d3 mid : List Nat,
        s = codes "Screenshot " ++
          (d1 ++ ([45] ++ (d2 ++ ([45] ++ (d3 ++ (mid ++ codes ".png")))))) ∧
        d1.length = 4 ∧ d2.length = 2 ∧ d3.length = 2 ∧
        (∀ c ∈ d1, isDigitCode c = true) ∧ (∀ c ∈ d2, isDigitCode c = true) ∧
        (∀ c ∈ d3, isDigitCode c = true) := by
  rw [claimMatch]
  constructor
  · intro h
    rcases hA : afterDate s with _ | r
    · rw [hA] at h; cases h
    · rw [hA] at h
      rcases (afterDate_eq_some s r).mp hA with ⟨d1, d2, d3, rfl, hl1, hl2, hl3, hg1, hg2, hg3⟩
      rcases List.isSuffixOf_iff_suffix.mp h with ⟨mid, hmid⟩
      exact ⟨d1, d2, d3, mid, by rw [← hmid], hl1, hl2, hl3, hg1, hg2, hg3⟩
  · rintro ⟨d1, d2, d3, mid, rfl, hl1, hl2, hl3, hg1, hg2, hg3⟩
    have hA : afterDate (codes "Screenshot " ++
        (d1 ++ ([45] ++ (d2 ++ ([45] ++ (d3 ++ (mid ++ codes ".png"))))))) =
        some (mid ++ codes ".png") :=
      (afterDate_eq_some _ _).mpr ⟨d1, d2, d3, rfl, hl1, hl2, hl3, hg1, hg2, hg3⟩
    rw [hA]
    exact List.isSuffixOf_iff_suffix.mpr ⟨mid, rfl⟩

/-- Claim C3 is false as stated: the source pattern has no end anchor and
`re.match` only requires a prefix match, so a basename where ".png" does
not terminate the string ("Screenshot 2024-01-15.png.jpg") is accepted by
the code although the claim says it must be rejected; conversely a
basename with a newline before a terminal ".png" satisfies the claim's
reading ("arbitrary trailing characters" then ".png" at the end) but is
rejected by the code, because the regex `.` does not match a newline. -/
theorem c3_anchor_counterexample :
    screenshotMatch (codes "Screenshot 2024-01-15.png.jpg") = true ∧
    claimMatch (codes "Screenshot 2024-01-15.png.jpg") = false ∧
    screenshotMatch (codes "Screenshot 2024-01-15" ++ (10 :: codes "x.png")) = false ∧
    claimMatch (codes "Screenshot 2024-01-15" ++ (10 :: codes "x.png")) = true := by
  exact ⟨by decide, by decide, by decide, by decide⟩

/-- Claim C3 amended: the matcher accepts exactly the basenames that
start with the literal "Screenshot " followed by a YYYY-MM-DD date,
followed by trailing characters none of which is a newline, followed by
an occurrence of ".png"; characters after that occurrence are ignored
(prefix match, no end anchor).  The match is anchored at the start and
case-sensitive, and the claim's three examples behave as stated. -/
theorem c3_matcher_amended (s : List Nat) :
    (screenshotMatch s = true ↔
      ∃ d1 d2 d3 mid rest : List Nat,
        s = codes "Screenshot " ++
          (d1 ++ ([45] ++ (d2 ++ ([45] ++ (d3 ++ (mid ++ (codes ".png" ++ rest))))))) ∧
        d1.length = 4 ∧ d2.length = 2 ∧ d3.length = 2 ∧
        (∀ c ∈ d1, isDigitCode c = true) ∧ (∀ c ∈ d2, isDigitCode c = true) ∧
        (∀ c ∈ d3, isDigitCode c = true) ∧ (∀ c ∈ mid, c ≠ 10)) ∧
    screenshotMatch (codes "Screenshot 2024-01-15 at 10.30.00.png") = true ∧
    screenshotMatch (codes "IMG_0001.png") = false ∧
    screenshotMatch (codes "Screenshot_2024.png") = false := by
  refine ⟨?_, by decide, by decide, by decide⟩
  rw [screenshotMatch]
  constructor
  · intro h
    rcases hA : afterDate s with _ | r
    · rw [hA] at h; cases h
    · rw [hA] at h
      rcases (afterDate_eq_some s r).mp hA with ⟨d1, d2, d3, rfl, hl1, hl2, hl3, hg1, hg2, hg3⟩
      rcases (dotStarPng_iff r).mp h with ⟨mid, rest, hr, hmid⟩
      refine ⟨d1, d2, d3, mid, rest, ?_, hl1, hl2, hl3, hg1, hg2, hg3, hmid⟩
      rw [hr, List.append_assoc]
  · rintro ⟨d1, d2, d3, mid, rest, rfl, hl1, hl2, hl3, hg1, hg2, hg3, hmid⟩
    have hA : afterDate (codes "Screenshot " ++
        (d1 ++ ([45] ++ (d2 ++ ([45] ++ (d3 ++ (mid ++ (codes ".png" ++ rest)))))))) =
        some (mid ++ (codes ".png" ++ rest)) :=
      (afterDate_eq_some _ _).mpr ⟨d1, d2, d3, rfl, hl1, hl2, hl3, hg1, hg2, hg3⟩
    rw [hA]
    exact (dotStarPng_iff _).mpr ⟨mid, rest, by rw [List.append_assoc], hmid⟩

/-! ### Decimal rendering of the collision counter

`f"{new_name}_{counter}{extension}"` renders the counter in decimal.
The rendering is written with explicit fuel so that it evaluates by
kernel reduction; `counter + 1` units of fuel always suffice. -/

def natCodesAux : Nat → Nat → List Nat
  | 0, _ => []
  | fuel + 1, n => if n < 10 then [n + 48] else natCodesAux fuel (n / 10) ++ [n % 10 + 48]

/-- The decimal digit string of `n` (code points). -/
def natCodes (n : Nat) : List Nat := natCodesAux (n + 1) n

theorem natCodesAux_foldl (fuel : Nat) :
    ∀ n acc : Nat, n < fuel →
      (natCodesAux fuel n).foldl (fun a c => a * 10 + (c - 48)) acc =
        acc * 10 ^ (natCodesAux fuel n).length + n := by
  induction fuel with
  | zero => intro n acc h; omega
  | succ fuel ih =>
    intro n acc h
    by_cases h10 : n < 10
    · simp only [natCodesAux, if_pos h10]
      simp only [List.foldl_cons, List.foldl_nil, List.length_singleton]
      omega
    · simp only [natCodesAux, if_neg h10]
      have hdiv : n / 10 < fuel := by
        have : n / 10 < n := Nat.div_lt_self (by omega) (by omega)
        omega
      rw [List.foldl_append, ih (n / 10) acc hdiv]
      simp only [List.foldl_cons, List.foldl_nil, List.length_append,
        List.length_singleton]
      have hmod : n % 10 + 48 - 48 = n % 10 := by omega
      rw [hmod, pow_succ]
      have := Nat.div_add_mod n 10
      ring_nf
      omega

theorem natCodes_inj (m n : Nat) (h : natCodes m = natCodes n) : m = n := by
  have hm := natCodesAux_foldl (m + 1) m 0 (by omega)
  have hn := natCodesAux_foldl (n + 1) n 0 (by omega)
  rw [natCodes] at h
  rw [natCodes] at h
  rw [h] at hm
  simp only [Nat.zero_mul] at hm hn
  omega

theorem natCodesAux_digits (fuel : Nat) :
    ∀ n c : Nat, c ∈ natCodesAux fuel n → 48 ≤ c ∧ c ≤ 57 := by
  induction fuel with
  | zero => intro n c hc; simp [natCodesAux] at hc
  | succ fuel ih =>
    intro n c hc
    by_cases h10 : n < 10
    · simp only [natCodesAux, if_pos h10, List.mem_singleton] at hc
      omega
    · simp only [natCodesAux, if_neg h10, List.mem_append,
        List.mem_singleton] at hc
      rcases hc with h | h
      · exact ih (n / 10) c h
      · have := Nat.mod_lt n (show 0 < 10 by omega)
        omega

theorem natCodes_digits (n c : Nat) (hc : c ∈ natCodes n) : 48 ≤ c ∧ c ≤ 57 :=
  natCodesAux_digits (n + 1) n c hc

/-! ### Models of the `os.path` functions used by `rename_file`

`os.path.dirname`, `os.path.splitext` and `os.path.join` are the POSIX
implementations (the program targets macOS); they are modelled on code
point lists, with 47 = '/', 46 = '.'. -/

/-- Model of `os.path.dirname`: everything up to the last '/', with
trailing slashes stripped unless the head consists only of slashes. -/
def dirName (p : List Nat) : List Nat :=
  if (p.reverse.dropWhile (fun c => c ≠ 47)).any (fun c => c ≠ 47) then
    ((p.reverse.dropWhile (fun c => c ≠ 47)).dropWhile (fun c => c = 47)).reverse
  else (p.reverse.dropWhile (fun c => c ≠ 47)).reverse

/-- Model of `os.path.splitext(p)[1]`: the extension starts at the last
'.' of the basename, provided some non-dot character of the basename
precedes it; otherwise it is empty.  (The reversed basename is
`takeWhile (· ≠ 47)` of the reversed path; the part after its last dot is
`takeWhile (· ≠ 46)` of that.) -/
def extOf (p : List Nat) : List Nat :=
  if ((p.reverse.takeWhile (fun c => c ≠ 47)).dropWhile (fun c => c ≠ 46)) = [] then []
  else if (((p.reverse.takeWhile (fun c => c ≠ 47)).dropWhile (fun c => c ≠ 46)).tail).any
      (fun c => c ≠ 46) then
    (((p.reverse.takeWhile (fun c => c ≠ 47)).takeWhile (fun c => c ≠ 46)) ++ [46]).reverse
  else []

/-- Model of `os.path.join(folder, b)` for a single component `b`. -/
def joinPath (folder b : List Nat) : List Nat :=
  if b.head? = some 47 then b
  else if folder = [] ∨ folder.getLast? = some 47 then folder ++ b
  else folder ++ 47 :: b

example : dirName (codes "/Users/me/Desktop/a.png") = codes "/Users/me/Desktop" := by decide
example : dirName (codes "a.png") = codes "" := by decide
example : dirName (codes "/a.png") = codes "/" := by decide
example : extOf (codes "/d/a.png") = codes ".png" := by decide
example : extOf (codes "/d/archive") = codes "" := by decide
example : extOf (codes "/d/.bashrc") = codes "" := by decide
example : joinPath (codes "/d") (codes "a.png") = codes "/d/a.png" := by decide

/-! ### The collision-safe destination search of `rename_file`
(src/main.py lines 125-134) -/

/-- `new_path = os.path.join(folder, f"{new_name}{extension}")`. -/
def mkBase (folder name ext : List Nat) : List Nat := joinPath folder (name ++ ext)

/-- `os.path.join(folder, f"{new_name}_{counter}{extension}")`. -/
def mkNth (folder name ext : List Nat) (n : Nat) : List Nat :=
  joinPath folder (name ++ 95 :: (natCodes n ++ ext))

/-- The `while os.path.exists(new_path)` loop: `cur` is the current
candidate and `counter` the next suffix to try.  Fuel is an artifact of
the embedding; `existing.length + 1` units always suffice (see the
termination theorem), and `none` means the fuel ran out. -/
def findDest (existing : List (List Nat)) (folder name ext : List Nat) :
    Nat → List Nat → Nat → Option (List Nat)
  | 0, cur, _ => if existing.contains cur then none else some cur
  | fuel + 1, cur, counter =>
    if existing.contains cur then
      findDest existing folder name ext fuel (mkNth folder name ext counter) (counter + 1)
    else some cur

/-- The destination path computed by `rename_file` before the rename
call, given the set of paths that exist in the filesystem. -/
def rename_dest (existing : List (List Nat)) (old_path new_name : List Nat) :
    Option (List Nat) :=
  findDest existing (dirName old_path) new_name (extOf old_path)
    (existing.length + 1) (mkBase (dirName old_path) new_name (extOf old_path)) 1

example : rename_dest [codes "d/cat_sitting.png"] (codes "d/s.png") (codes "cat_sitting") =
    some (codes "d/cat_sitting_1.png") := by decide

example : rename_dest [codes "d/cat_sitting.png", codes "d/cat_sitting_1.png"]
    (codes "d/s.png") (codes "cat_sitting") = some (codes "d/cat_sitting_2.png") := by decide

/-! ### Termination and correctness of the collision search -/

theorem joinPath_shape (folder b : List Nat) :
    ∃ P : List Nat, joinPath folder b = P ++ b ∧
      ∀ b' : List Nat, b'.head? = b.head? → joinPath folder b' = P ++ b' := by
  rw [joinPath]
  split
  · rename_i h
    exact ⟨[], by simp, fun b' hb' => by rw [joinPath, if_pos (hb'.trans h)]; simp⟩
  · split
    · rename_i h1 h2
      refine ⟨folder, rfl, fun b' hb' => ?_⟩
      rw [joinPath, if_neg (fun hh => h1 (hb'.symm.trans hh)), if_pos h2]
    · rename_i h1 h2
      refine ⟨folder ++ [47], by simp, fun b' hb' => ?_⟩
      rw [joinPath, if_neg (fun hh => h1 (hb'.symm.trans hh)), if_neg h2]
      simp

theorem mkNth_inj (folder name ext : List Nat) (m n : Nat)
    (h : mkNth folder name ext m = mkNth folder name ext n) : m = n := by
  rw [mkNth, mkNth] at h
  obtain ⟨P, hP, hgen⟩ := joinPath_shape folder (name ++ 95 :: (natCodes m ++ ext))
  have hhead : (name ++ 95 :: (natCodes n ++ ext)).head? =
      (name ++ 95 :: (natCodes m ++ ext)).head? := by
    cases name <;> simp
  rw [hP, hgen _ hhead] at h
  have h1 := List.append_cancel_left h
  have h2 := List.append_cancel_left h1
  have h3 : natCodes m ++ ext = natCodes n ++ ext := by
    exact (List.cons.injEq _ _ _ _).mp h2 |>.2
  exact natCodes_inj m n (List.append_cancel_right h3)

theorem findDest_stop (existing : List (List Nat)) (folder name ext : List Nat)
    (fuel : Nat) (cur : List Nat) (counter : Nat)
    (h : existing.contains cur = false) :
    findDest existing folder name ext fuel cur counter = some cur := by
  cases fuel with
  | zero => rw [findDest, if_neg (by rw [h]; simp)]
  | succ n => rw [findDest, if_neg (by rw [h]; simp)]

theorem findDest_found (existing : List (List Nat)) (folder name ext : List Nat) :
    ∀ (fuel counter : Nat) (cur : List Nat),
      (∃ j, counter ≤ j ∧ j < counter + fuel ∧ mkNth folder name ext j ∉ existing) →
      existing.contains cur = true →
      ∃ N, counter ≤ N ∧
        findDest existing folder name ext fuel cur counter =
          some (mkNth folder name ext N) ∧
        mkNth folder name ext N ∉ existing ∧
        ∀ m, counter ≤ m → m < N → mkNth folder name ext m ∈ existing := by
  intro fuel
  induction fuel with
  | zero =>
    rintro counter cur ⟨j, hj1, hj2, _⟩ _
    omega
  | succ fuel ih =>
    rintro counter cur ⟨j, hj1, hj2, hj3⟩ hcur
    simp only [findDest, hcur, if_true]
    by_cases hnext : mkNth folder name ext counter ∈ existing
    · have hc : existing.contains (mkNth folder name ext counter) = true :=
        List.elem_iff.mpr hnext
      have hjc : j ≠ counter := fun e => hj3 (e ▸ hnext)
      obtain ⟨N, hN1, hN2, hN3, hN4⟩ :=
        ih (counter + 1) (mkNth folder name ext counter)
          ⟨j, by omega, by omega, hj3⟩ hc
      refine ⟨N, by omega, hN2, hN3, ?_⟩
      intro m hm1 hm2
      rcases Nat.eq_or_lt_of_le hm1 with h | h
      · exact h ▸ hnext
      · exact hN4 m (by omega) hm2
    · have hc : existing.contains (mkNth folder name ext counter) = false := by
        rw [← Bool.not_eq_true]
        exact fun hh => hnext (List.elem_iff.mp hh)
      refine ⟨counter, le_rfl,
        findDest_stop existing folder name ext fuel _ (counter + 1) hc,
        hnext, fun m hm1 hm2 => absurd rfl (by omega : m ≠ m)⟩

theorem exists_fresh_index (existing : List (List Nat)) (folder name ext : List Nat) :
    ∃ j, 1 ≤ j ∧ j < existing.length + 2 ∧ mkNth folder name ext j ∉ existing := by
  by_contra hcon
  push_neg at hcon
  have hmaps : ∀ j ∈ Finset.Icc 1 (existing.length + 1),
      mkNth folder name ext j ∈ existing.toFinset := by
    intro j hj
    rw [List.mem_toFinset]
    obtain ⟨h1, h2⟩ := Finset.mem_Icc.mp hj
    exact hcon j h1 (by omega)
  have hinj : Set.InjOn (mkNth folder name ext) (Finset.Icc 1 (existing.length + 1)) :=
    fun a _ b _ hab => mkNth_inj folder name ext a b hab
  have hcard := Finset.card_le_card_of_injOn _ hmaps hinj
  rw [Nat.card_Icc] at hcard
  have := existing.toFinset_card_le
  omega

/-- Claim C4: the destination computed by `rename_file` is
`{directory}/{base_name}{original_extension}` when that path does not
already exist; otherwise it is `{directory}/{base_name}_N{extension}` for
the smallest positive integer N whose path does not exist. -/
theorem c4_rename_destination (existing : List (List Nat)) (old_path new_name : List Nat) :
    (mkBase (dirName old_path) new_name (extOf old_path) ∉ existing →
      rename_dest existing old_path new_name =
        some (mkBase (dirName old_path) new_name (extOf old_path))) ∧
    (mkBase (dirName old_path) new_name (extOf old_path) ∈ existing →
      ∃ N, 1 ≤ N ∧
        rename_dest existing old_path new_name =
          some (mkNth (dirName old_path) new_name (extOf old_path) N) ∧
        mkNth (dirName old_path) new_name (extOf old_path) N ∉ existing ∧
        ∀ m, 1 ≤ m → m < N →
          mkNth (dirName old_path) new_name (extOf old_path) m ∈ existing) := by
  constructor
  · intro h
    have hc : existing.contains (mkBase (dirName old_path) new_name (extOf old_path)) = false := by
      rw [← Bool.not_eq_true]
      exact fun hh => h (List.elem_iff.mp hh)
    exact findDest_stop existing _ _ _ _ _ 1 hc
  · intro h
    obtain ⟨j, hj1, hj2, hj3⟩ :=
      exists_fresh_index existing (dirName old_path) new_name (extOf old_path)
    exact findDest_found existing _ _ _ (existing.length + 1) 1 _
      ⟨j, hj1, by omega, hj3⟩ (List.elem_iff.mpr h)

/-- Witness for claim C4 at the claim's own example: with
`cat_sitting.png` present, the destination is `cat_sitting_1.png`; with
both `cat_sitting.png` and `cat_sitting_1.png` present, it is
`cat_sitting_2.png` (the branch facts are obtained by applying the
theorem at these inputs). -/
theorem c4_rename_destination_witness :
    (rename_dest [] (codes "d/s.png") (codes "cat_sitting") =
      some (mkBase (dirName (codes "d/s.png")) (codes "cat_sitting")
        (extOf (codes "d/s.png")))) ∧
    (∃ N, 1 ≤ N ∧
      rename_dest [codes "d/cat_sitting.png", codes "d/cat_sitting_1.png"]
          (codes "d/s.png") (codes "cat_sitting") =
        some (mkNth (dirName (codes "d/s.png")) (codes "cat_sitting")
          (extOf (codes "d/s.png")) N) ∧
      mkNth (dirName (codes "d/s.png")) (codes "cat_sitting")
        (extOf (codes "d/s.png")) N ∉
        [codes "d/cat_sitting.png", codes "d/cat_sitting_1.png"] ∧
      ∀ m, 1 ≤ m → m < N →
        mkNth (dirName (codes "d/s.png")) (codes "cat_sitting")
          (extOf (codes "d/s.png")) m ∈
          [codes "d/cat_sitting.png", codes "d/cat_sitting_1.png"]) :=
  ⟨(c4_rename_destination [] (codes "d/s.png") (codes "cat_sitting")).1 (by decide),
   (c4_rename_destination [codes "d/cat_sitting.png", codes "d/cat_sitting_1.png"]
     (codes "d/s.png") (codes "cat_sitting")).2 (by decide)⟩

/-- Claim C10: the collision-search loop of `rename_file` terminates for
every directory, base name, extension and finite set of existing paths:
any fuel of at least `existing.length + 1` iterations suffices (the loop
halts before exhausting it), and the result does not depend on the fuel. -/
theorem c10_search_terminates (existing : List (List Nat)) (folder name ext : List Nat)
    (fuel : Nat) (hfuel : existing.length + 1 ≤ fuel) :
    (∃ r, findDest existing folder name ext fuel (mkBase folder name ext) 1 = some r) ∧
    findDest existing folder name ext fuel (mkBase folder name ext) 1 =
      findDest existing folder name ext (existing.length + 1)
        (mkBase folder name ext) 1 := by
  by_cases hbase : mkBase folder name ext ∈ existing
  · have hc : existing.contains (mkBase folder name ext) = true := List.elem_iff.mpr hbase
    obtain ⟨j, hj1, hj2, hj3⟩ := exists_fresh_index existing folder name ext
    obtain ⟨N, hN1, hN2, hN3, hN4⟩ :=
      findDest_found existing folder name ext fuel 1 _ ⟨j, hj1, by omega, hj3⟩ hc
    obtain ⟨N', hM1, hM2, hM3, hM4⟩ :=
      findDest_found existing folder name ext (existing.length + 1) 1 _
        ⟨j, hj1, by omega, hj3⟩ hc
    have hNN : N = N' := by
      rcases Nat.lt_trichotomy N N' with h | h | h
      · exact absurd (hM4 N hN1 h) hN3
      · exact h
      · exact absurd (hN4 N' hM1 h) hM3
    exact ⟨⟨_, hN2⟩, by rw [hN2, hM2, hNN]⟩
  · have hc : existing.contains (mkBase folder name ext) = false := by
      rw [← Bool.not_eq_true]
      exact fun hh => hbase (List.elem_iff.mp hh)
    rw [findDest_stop existing folder name ext fuel _ 1 hc,
      findDest_stop existing folder name ext (existing.length + 1) _ 1 hc]
    exact ⟨⟨_, rfl⟩, rfl⟩

/-- Witness for claim C10 at a concrete instance with surplus fuel. -/
theorem c10_search_terminates_witness :
    (∃ r, findDest [codes "d/a.png"] (codes "d") (codes "a") (codes ".png") 7
      (mkBase (codes "d") (codes "a") (codes ".png")) 1 = some r) ∧
    findDest [codes "d/a.png"] (codes "d") (codes "a") (codes ".png") 7
      (mkBase (codes "d") (codes "a") (codes ".png")) 1 =
    findDest [codes "d/a.png"] (codes "d") (codes "a") (codes ".png") 2
      (mkBase (codes "d") (codes "a") (codes ".png")) 1 :=
  c10_search_terminates [codes "d/a.png"] (codes "d") (codes "a") (codes ".png") 7
    (by decide)

/-! ### Frame lemmas: the rename keeps the directory and the extension -/

theorem takeWhile_append_all {p : Nat → Bool} (a b : List Nat)
    (h : ∀ c ∈ a, p c = true) : (a ++ b).takeWhile p = a ++ b.takeWhile p := by
  induction a with
  | nil => simp
  | cons x xs ih =>
    rw [List.cons_append, List.takeWhile_cons_of_pos (h x (List.mem_cons_self x xs)),
      ih fun c hc => h c (List.mem_cons_of_mem x hc), List.cons_append]

theorem dropWhile_append_all {p : Nat → Bool} (a b : List Nat)
    (h : ∀ c ∈ a, p c = true) : (a ++ b).dropWhile p = b.dropWhile p := by
  induction a with
  | nil => simp
  | cons x xs ih =>
    rw [List.cons_append, List.dropWhile_cons_of_pos (h x (List.mem_cons_self x xs)),
      ih fun c hc => h c (List.mem_cons_of_mem x hc)]

theorem dropWhile_all {p : Nat → Bool} (a : List Nat)
    (h : ∀ c ∈ a, p c = true) : a.dropWhile p = [] := by
  have := dropWhile_append_all a [] h
  simpa using this

theorem head?_dropWhile_false {p : Nat → Bool} (l : List Nat) (a : Nat)
    (h : (l.dropWhile p).head? = some a) : p a = false := by
  induction l with
  | nil => simp at h
  | cons c cs ih =>
    by_cases hc : p c
    · rw [List.dropWhile_cons_of_pos hc] at h
      exact ih h
    · rw [List.dropWhile_cons_of_neg hc, List.head?_cons, Option.some.injEq] at h
      subst h
      exact Bool.not_eq_true _ ▸ hc

theorem dirName_shape (p : List Nat) :
    dirName p = [] ∨ (dirName p ≠ [] ∧ ∀ c ∈ dirName p, c = 47) ∨
      (dirName p).getLast? ≠ some 47 := by
  rw [dirName]
  split
  · rename_i hany
    cases hX : (p.reverse.dropWhile (fun c => c ≠ 47)).dropWhile (fun c => c = 47) with
    | nil => left; rfl
    | cons a t =>
      right; right
      rw [List.getLast?_reverse, List.head?_cons]
      have ha := head?_dropWhile_false
        (p.reverse.dropWhile (fun c => c ≠ 47)) a (by rw [hX]; rfl)
      simp only [decide_eq_false_iff_not] at ha
      simp only [ne_eq, Option.some.injEq]
      exact ha
  · rename_i hany
    rw [Bool.not_eq_true, List.any_eq_false] at hany
    cases hX : p.reverse.dropWhile (fun c => c ≠ 47) with
    | nil => left; rfl
    | cons a t =>
      right; left
      refine ⟨by simp, ?_⟩
      intro c hc
      have hmem : c ∈ p.reverse.dropWhile (fun c => c ≠ 47) := by
        rw [hX]; exact List.mem_reverse.mp hc
      have := hany c hmem
      simpa using this

theorem joinPath_split (folder b : List Nat) (hb : b.head? ≠ some 47) :
    ∃ P : List Nat, joinPath folder b = P ++ b ∧
      (P = [] ∨ P.getLast? = some 47) := by
  rw [joinPath, if_neg hb]
  split
  · rename_i h2
    rcases h2 with h | h
    · exact ⟨folder, rfl, Or.inl h⟩
    · exact ⟨folder, rfl, Or.inr h⟩
  · exact ⟨folder ++ [47], by simp, Or.inr (by simp)⟩

theorem dirName_joinPath (folder b : List Nat) (hbne : b ≠ [])
    (hbs : ∀ c ∈ b, c ≠ 47)
    (hf : folder = [] ∨ (folder ≠ [] ∧ ∀ c ∈ folder, c = 47) ∨
      folder.getLast? ≠ some 47) :
    dirName (joinPath folder b) = folder := by
  have hbhead : b.head? ≠ some 47 := by
    cases b with
    | nil => exact absurd rfl hbne
    | cons x xs =>
      rw [List.head?_cons]
      exact fun h => hbs x (List.mem_cons_self x xs) (Option.some.injEq _ _ ▸ h)
  have hbrev : ∀ c ∈ b.reverse, (fun c => decide (c ≠ 47)) c = true := by
    intro c hc
    simpa using hbs c (List.mem_reverse.mp hc)
  rw [joinPath, if_neg hbhead]
  by_cases h2 : folder = [] ∨ folder.getLast? = some 47
  · rw [if_pos h2]
    rcases h2 with hnil | hlast
    · subst hnil
      rw [List.nil_append, dirName]
      have hdrop : b.reverse.dropWhile (fun c => c ≠ 47) = [] :=
        dropWhile_all _ hbrev
      rw [hdrop]
      simp
    · have hall : folder ≠ [] ∧ ∀ c ∈ folder, c = 47 := by
        rcases hf with h | h | h
        · subst h; simp at hlast
        · exact h
        · exact absurd hlast h
      rw [dirName, List.reverse_append]
      rw [dropWhile_append_all _ _ hbrev]
      have hfr : folder.reverse.dropWhile (fun c => c ≠ 47) = folder.reverse := by
        cases hh : folder.reverse with
        | nil => rfl
        | cons a t =>
          have ha : a = 47 :=
            hall.2 a (List.mem_reverse.mp (hh ▸ List.mem_cons_self a t))
          rw [List.dropWhile_cons_of_neg (by simp [ha])]
      rw [hfr]
      have hany : folder.reverse.any (fun c => c ≠ 47) = false := by
        rw [List.any_eq_false]
        intro x hx
        have := hall.2 x (List.mem_reverse.mp hx)
        simp [this]
      rw [if_neg (by rw [hany]; simp), List.reverse_reverse]
  · rw [if_neg h2]
    push_neg at h2
    obtain ⟨hfne, hflast⟩ := h2
    rw [dirName]
    have hrev : (folder ++ 47 :: b).reverse = b.reverse ++ 47 :: folder.reverse := by
      simp
    rw [hrev, dropWhile_append_all _ _ hbrev,
      List.dropWhile_cons_of_neg (by simp)]
    have hhead : ∃ a t, folder.reverse = a :: t ∧ a ≠ 47 := by
      cases hh : folder.reverse with
      | nil => exact absurd (List.reverse_eq_nil_iff.mp hh) hfne
      | cons a t =>
        refine ⟨a, t, rfl, ?_⟩
        intro ha
        apply hflast
        rw [← List.head?_reverse, hh, List.head?_cons, ha]
    obtain ⟨a, t, hat, ha⟩ := hhead
    have hany : (47 :: folder.reverse).any (fun c => c ≠ 47) = true := by
      rw [List.any_eq_true]
      exact ⟨a, List.mem_cons_of_mem 47 (hat ▸ List.mem_cons_self a t), by simpa using ha⟩
    rw [if_pos (by rw [hany]),
      List.dropWhile_cons_of_pos (by simp), hat,
      List.dropWhile_cons_of_neg (by simpa using ha), ← hat, List.reverse_reverse]

theorem extOf_shape (p : List Nat) :
    extOf p = [] ∨ ∃ t, extOf p = 46 :: t ∧ ∀ c ∈ t, c ≠ 46 ∧ c ≠ 47 := by
  rw [extOf]
  split
  · exact Or.inl rfl
  · split
    · right
      refine ⟨((p.reverse.takeWhile (fun c => c ≠ 47)).takeWhile (fun c => c ≠ 46)).reverse,
        by simp, ?_⟩
      intro c hc
      have hmem := List.mem_reverse.mp hc
      have h46 : c ≠ 46 := by simpa using List.mem_takeWhile_imp hmem
      have hmem2 : c ∈ p.reverse.takeWhile (fun c => c ≠ 47) :=
        (List.takeWhile_sublist _).subset hmem
      have h47 : c ≠ 47 := by simpa using List.mem_takeWhile_imp hmem2
      exact ⟨h46, h47⟩
    · exact Or.inl rfl

theorem extOf_joinPath_front (folder front E : List Nat) (hne : front ≠ [])
    (hfr : ∀ c ∈ front, c ≠ 46 ∧ c ≠ 47)
    (hE : E = [] ∨ ∃ t, E = 46 :: t ∧ ∀ c ∈ t, c ≠ 46 ∧ c ≠ 47) :
    extOf (joinPath folder (front ++ E)) = E := by
  have hbhead : (front ++ E).head? ≠ some 47 := by
    cases front with
    | nil => exact absurd rfl hne
    | cons x xs =>
      rw [List.cons_append, List.head?_cons]
      exact fun h => (hfr x (List.mem_cons_self x xs)).2 (Option.some.injEq _ _ ▸ h)
  obtain ⟨P, hP, hPshape⟩ := joinPath_split folder (front ++ E) hbhead
  rw [hP]
  have hfrontrev47 : ∀ c ∈ front.reverse, (fun c => decide (c ≠ 47)) c = true := by
    intro c hc
    simpa using (hfr c (List.mem_reverse.mp hc)).2
  have hfrontrev46 : ∀ c ∈ front.reverse, (fun c => decide (c ≠ 46)) c = true := by
    intro c hc
    simpa using (hfr c (List.mem_reverse.mp hc)).1
  have hPrev : P.reverse.takeWhile (fun c => c ≠ 47) = [] := by
    rcases hPshape with h | h
    · subst h; rfl
    · have : P.reverse.head? = some 47 := by rw [List.head?_reverse, h]
      cases hh : P.reverse with
      | nil => rfl
      | cons a t =>
        rw [hh, List.head?_cons, Option.some.injEq] at this
        rw [List.takeWhile_cons_of_neg (by simp [this])]
  rcases hE with hEnil | ⟨t, hEt, ht⟩
  · subst hEnil
    rw [List.append_nil, extOf, List.reverse_append,
      takeWhile_append_all _ _ hfrontrev47, hPrev, List.append_nil]
    have hdrop : front.reverse.dropWhile (fun c => c ≠ 46) = [] :=
      dropWhile_all _ hfrontrev46
    rw [hdrop, if_pos rfl]
  · subst hEt
    have hErev47 : ∀ c ∈ (46 :: t).reverse, (fun c => decide (c ≠ 47)) c = true := by
      intro c hc
      rcases List.mem_cons.mp (List.mem_reverse.mp hc) with h | h
      · simp [h]
      · simpa using (ht c h).2
    have htrev46 : ∀ c ∈ t.reverse, (fun c => decide (c ≠ 46)) c = true := by
      intro c hc
      simpa using (ht c (List.mem_reverse.mp hc)).1
    have hrev : (P ++ (front ++ 46 :: t)).reverse =
        (46 :: t).reverse ++ (front.reverse ++ P.reverse) := by
      simp
    have hbase : ((P ++ (front ++ 46 :: t)).reverse).takeWhile (fun c => c ≠ 47) =
        t.reverse ++ (46 :: front.reverse) := by
      rw [hrev, takeWhile_append_all _ _ hErev47,
        takeWhile_append_all _ _ hfrontrev47, hPrev, List.append_nil]
      simp
    rw [extOf, hbase]
    have hdrop : (t.reverse ++ (46 :: front.reverse)).dropWhile (fun c => c ≠ 46) =
        46 :: front.reverse := by
      rw [dropWhile_append_all _ _ htrev46, List.dropWhile_cons_of_neg (by simp)]
    rw [hdrop]
    rw [if_neg (by simp), List.tail_cons]
    obtain ⟨f, fs, hffs⟩ : ∃ f fs, front = f :: fs := by
      cases front with
      | nil => exact absurd rfl hne
      | cons f fs => exact ⟨f, fs, rfl⟩
    have hany : front.reverse.any (fun c => c ≠ 46) = true := by
      rw [List.any_eq_true]
      refine ⟨f, List.mem_reverse.mpr (hffs ▸ List.mem_cons_self f fs), ?_⟩
      simpa using (hfr f (hffs ▸ List.mem_cons_self f fs)).1
    rw [if_pos (by rw [hany])]
    have htake : (t.reverse ++ (46 :: front.reverse)).takeWhile (fun c => c ≠ 46) =
        t.reverse := by
      rw [takeWhile_append_all _ _ htrev46, List.takeWhile_cons_of_neg (by simp),
        List.append_nil]
    rw [htake]
    simp

theorem findDest_shape (existing : List (List Nat)) (folder name ext : List Nat) :
    ∀ (fuel counter : Nat) (cur r : List Nat),
      findDest existing folder name ext fuel cur counter = some r →
      r = cur ∨ ∃ n, r = mkNth folder name ext n := by
  intro fuel
  induction fuel with
  | zero =>
    intro counter cur r h
    rw [findDest] at h
    split at h
    · cases h
    · exact Or.inl (Option.some.injEq _ _ ▸ h).symm
  | succ fuel ih =>
    intro counter cur r h
    rw [findDest] at h
    split at h
    · rcases ih (counter + 1) (mkNth folder name ext counter) r h with h' | ⟨n, hn⟩
      · exact Or.inr ⟨counter, h'⟩
      · exact Or.inr ⟨n, hn⟩
    · exact Or.inl (Option.some.injEq _ _ ▸ h).symm

/-- Claim C7: every destination produced by the renamer for a sanitized
name lies in the same directory as the source path, and its extension is
the source's original extension, unmodified. -/
theorem c7_rename_frame (existing : List (List Nat)) (old_path d dest : List Nat)
    (h : rename_dest existing old_path (get_ai_filename d) = some dest) :
    dirName dest = dirName old_path ∧ extOf dest = extOf old_path := by
  have hnne : get_ai_filename d ≠ [] := (c6_sanitizer_total d).1
  have hnchar : ∀ c ∈ get_ai_filename d, c ≠ 46 ∧ c ≠ 47 := by
    intro c hc
    have := get_ai_filename_chars d c hc
    simp only [isLowerWordCode, decide_eq_true_eq] at this
    exact ⟨by omega, by omega⟩
  rw [rename_dest] at h
  have hshape := findDest_shape existing (dirName old_path) (get_ai_filename d)
    (extOf old_path) (existing.length + 1) 1 _ dest h
  have hEshape := extOf_shape old_path
  have hDshape := dirName_shape old_path
  have main : ∀ front : List Nat, front ≠ [] → (∀ c ∈ front, c ≠ 46 ∧ c ≠ 47) →
      dirName (joinPath (dirName old_path) (front ++ extOf old_path)) = dirName old_path ∧
      extOf (joinPath (dirName old_path) (front ++ extOf old_path)) = extOf old_path := by
    intro front hf1 hf2
    constructor
    · apply dirName_joinPath
      · cases front with
        | nil => exact absurd rfl hf1
        | cons x xs => simp
      · intro c hc
        rcases List.mem_append.mp hc with h' | h'
        · exact (hf2 c h').2
        · rcases hEshape with hE | ⟨t, hEt, ht⟩
          · rw [hE] at h'; simp at h'
          · rw [hEt] at h'
            rcases List.mem_cons.mp h' with h'' | h''
            · subst h''; omega
            · exact (ht c h'').2
      · exact hDshape
    · exact extOf_joinPath_front _ _ _ hf1 hf2 hEshape
  rcases hshape with hdest | ⟨n, hdest⟩
  · rw [hdest, mkBase]
    exact main (get_ai_filename d) hnne hnchar
  · rw [hdest, mkNth]
    have hb : get_ai_filename d ++ 95 :: (natCodes n ++ extOf old_path) =
        (get_ai_filename d ++ 95 :: natCodes n) ++ extOf old_path := by
      simp
    rw [hb]
    apply main
    · simp
    · intro c hc
      rcases List.mem_append.mp hc with h' | h'
      · exact hnchar c h'
      · rcases List.mem_cons.mp h' with h'' | h''
        · subst h''; omega
        · have := natCodes_digits n c h''
          exact ⟨by omega, by omega⟩

/-- Witness for claim C7: the end-to-end example of the spec ("A red
apple on a table" renames `Screenshot 2024-06-01 at 09.00.00.png` to
`red_apple_table.png` in the same directory with the same extension). -/
theorem c7_rename_frame_witness :
    dirName (codes "d/red_apple_table.png") =
      dirName (codes "d/Screenshot 2024-06-01 at 09.00.00.png") ∧
    extOf (codes "d/red_apple_table.png") =
      extOf (codes "d/Screenshot 2024-06-01 at 09.00.00.png") :=
  c7_rename_frame [] (codes "d/Screenshot 2024-06-01 at 09.00.00.png")
    (codes "A red apple on a table") (codes "d/red_apple_table.png") (by decide)

/-! ### The stability waiter (`wait_for_file_ready`, src/main.py 62-76)

The poll trace is a function `obs : Nat → Option Nat`: `obs i` is the
result of the i-th `os.path.getsize` call, `none` when it raises
`OSError` (in which case the loop sleeps and retries without updating
`historical_size`).  `fuel` is the number of polls the timeout window
admits, and `hist` models `historical_size` (initially `-1`). -/

def wait_for_file_ready (obs : Nat → Option Nat) : Nat → Nat → Int → Bool
  | 0, _, _ => false
  | fuel + 1, i, hist =>
    match obs i with
    | some sz => if (sz : Int) = hist ∧ 0 < sz then true
                 else wait_for_file_ready obs fuel (i + 1) (sz : Int)
    | none => wait_for_file_ready obs fuel (i + 1) hist

theorem wait_fails_of_changing (obs : Nat → Option Nat) (szs : Nat → Nat)
    (hobs : ∀ j, obs j = some (szs j)) (hch : ∀ j, szs (j + 1) ≠ szs j) :
    ∀ (fuel i : Nat) (hist : Int), hist ≠ (szs i : Int) →
      wait_for_file_ready obs fuel i hist = false := by
  intro fuel
  induction fuel with
  | zero => intro i hist _; rfl
  | succ fuel ih =>
    intro i hist hne
    have hgoal : wait_for_file_ready obs (fuel + 1) i hist =
        (if ((szs i : Int) = hist ∧ 0 < szs i) then true
         else wait_for_file_ready obs fuel (i + 1) (szs i : Int)) := by
      rw [wait_for_file_ready, hobs i]
    rw [hgoal, if_neg (fun hc => hne hc.1.symm)]
    apply ih
    intro hc
    exact hch i (by exact_mod_cast hc.symm)

theorem wait_success_shape (obs : Nat → Option Nat) :
    ∀ (fuel i : Nat) (hist : Int), wait_for_file_ready obs fuel i hist = true →
      (∃ j s, i ≤ j ∧ obs j = some s ∧ 0 < s ∧ (s : Int) = hist ∧
        ∀ m, i ≤ m → m < j → obs m = none) ∨
      (∃ k j s, i ≤ k ∧ k < j ∧ obs k = some s ∧ obs j = some s ∧ 0 < s ∧
        ∀ m, k < m → m < j → obs m = none) := by
  intro fuel
  induction fuel with
  | zero => intro i hist h; cases h
  | succ fuel ih =>
    intro i hist h
    rw [wait_for_file_ready] at h
    cases hobs : obs i with
    | none =>
      rw [hobs] at h
      have h' : wait_for_file_ready obs fuel (i + 1) hist = true := h
      rcases ih (i + 1) hist h' with ⟨j, s, hij, hjs, hs, hhist, hbet⟩ |
        ⟨k, j, s, hik, hkj, hks, hjs, hs, hbet⟩
      · refine Or.inl ⟨j, s, by omega, hjs, hs, hhist, ?_⟩
        intro m hm1 hm2
        rcases Nat.eq_or_lt_of_le hm1 with he | hlt
        · exact he ▸ hobs
        · exact hbet m (by omega) hm2
      · exact Or.inr ⟨k, j, s, by omega, hkj, hks, hjs, hs, hbet⟩
    | some sz =>
      rw [hobs] at h
      have h'' : (if ((sz : Int) = hist ∧ 0 < sz) then true
          else wait_for_file_ready obs fuel (i + 1) (sz : Int)) = true := h
      by_cases hcond : (sz : Int) = hist ∧ 0 < sz
      · exact Or.inl ⟨i, sz, le_rfl, hobs, hcond.2, hcond.1,
          fun m hm1 hm2 => absurd rfl (by omega : m ≠ m)⟩
      · rw [if_neg hcond] at h''
        rcases ih (i + 1) (sz : Int) h'' with ⟨j, s, hij, hjs, hs, hhist, hbet⟩ |
          ⟨k, j, s, hik, hkj, hks, hjs, hs, hbet⟩
        · have hssz : s = sz := by exact_mod_cast hhist
          refine Or.inr ⟨i, j, s, le_rfl, by omega, hssz ▸ hobs, hjs, hs, ?_⟩
          intro m hm1 hm2
          exact hbet m (by omega) hm2
        · exact Or.inr ⟨k, j, s, by omega, hkj, hks, hjs, hs, hbet⟩

/-! ### The per-file pipeline (`process_file`, src/main.py 46-60) and the
rename stage (`rename_file`, src/main.py 125-139) -/

/-- Outcome of one `rename_file` call. -/
structure RenameRun where
  calls : Nat
  firstOk : Bool
  raised : Bool
  fs : List (List Nat)

/-- Model of `os.rename(src, dst)` on the set of existing paths: it
raises (`none`) when the source does not exist. -/
def osRename (fs : List (List Nat)) (src dst : List Nat) :
    Option (List (List Nat)) :=
  if fs.contains src then some (dst :: fs.erase src) else none

/-- Model of `rename_file` (src/main.py lines 125-139): compute the
collision-free destination, then perform the source's **two** consecutive
`os.rename(old_path, new_path)` calls (lines 136 and 137); an exception in
either propagates to `process_file`'s `except` clause. -/
def rename_file_run (fs : List (List Nat)) (old_path new_name : List Nat) :
    RenameRun :=
  match rename_dest fs old_path new_name with
  | none => ⟨0, false, true, fs⟩
  | some dest =>
    match osRename fs old_path dest with
    | none => ⟨1, false, true, fs⟩
    | some fs1 =>
      match osRename fs1 old_path dest with
      | none => ⟨2, true, true, fs1⟩
      | some fs2 => ⟨2, true, false, fs2⟩

/-- Outcome of one `process_file` call. -/
structure ProcResult where
  timedOut : Bool
  aiCalled : Bool
  renameCalls : Nat
  firstRenameOk : Bool
  raised : Bool
  notified : Bool
  errorLogged : Bool
  fs : List (List Nat)

/-- Model of `process_file` (src/main.py lines 46-60): wait for stability
(abort with a log line on timeout, before any inference call), then ask
for a description (`desc` is the inference service's reply), sanitize it,
rename, and notify; an exception inside the `try` block is caught and
logged, and then no notification happens. -/
def process_file_run (obs : Nat → Option Nat) (fuel : Nat)
    (fs : List (List Nat)) (filepath desc : List Nat) : ProcResult :=
  if wait_for_file_ready obs fuel 0 (-1) then
    let r := rename_file_run fs filepath (get_ai_filename desc)
    { timedOut := false, aiCalled := true, renameCalls := r.calls,
      firstRenameOk := r.firstOk, raised := r.raised, notified := !r.raised,
      errorLogged := r.raised, fs := r.fs }
  else
    { timedOut := true, aiCalled := false, renameCalls := 0,
      firstRenameOk := false, raised := false, notified := false,
      errorLogged := false, fs := fs }

/-- Claim C1 is right and the code is wrong: `rename_file` contains two
consecutive `os.rename(old_path, new_path)` calls (src/main.py lines
136-137).  On a file that reaches the rename stage and whose first rename
succeeds, the code performs a second rename of the now-nonexistent source
path, which raises `FileNotFoundError`; the pipeline therefore logs an
error and never sends the notification, contradicting the claim's (and
the spec's) "exactly one rename, pipeline completes, notification made".
This theorem evaluates the model at such an input: the stability wait
succeeds, the destination is free, the first rename succeeds — and still
two rename calls are made, the pipeline raises, and no notification
happens (the file itself does end up renamed by the first call). -/
theorem c1_double_rename_bug :
    (process_file_run (fun _ => some 5) 3
        [codes "/d/Screenshot 2024-01-15 at 10.30.00.png"]
        (codes "/d/Screenshot 2024-01-15 at 10.30.00.png")
        (codes "a cat")).renameCalls = 2 ∧
    (process_file_run (fun _ => some 5) 3
        [codes "/d/Screenshot 2024-01-15 at 10.30.00.png"]
        (codes "/d/Screenshot 2024-01-15 at 10.30.00.png")
        (codes "a cat")).firstRenameOk = true ∧
    (process_file_run (fun _ => some 5) 3
        [codes "/d/Screenshot 2024-01-15 at 10.30.00.png"]
        (codes "/d/Screenshot 2024-01-15 at 10.30.00.png")
        (codes "a cat")).raised = true ∧
    (process_file_run (fun _ => some 5) 3
        [codes "/d/Screenshot 2024-01-15 at 10.30.00.png"]
        (codes "/d/Screenshot 2024-01-15 at 10.30.00.png")
        (codes "a cat")).notified = false ∧
    (process_file_run (fun _ => some 5) 3
        [codes "/d/Screenshot 2024-01-15 at 10.30.00.png"]
        (codes "/d/Screenshot 2024-01-15 at 10.30.00.png")
        (codes "a cat")).errorLogged = true ∧
    (process_file_run (fun _ => some 5) 3
        [codes "/d/Screenshot 2024-01-15 at 10.30.00.png"]
        (codes "/d/Screenshot 2024-01-15 at 10.30.00.png")
        (codes "a cat")).fs = [codes "/d/cat.png"] := by
  exact ⟨by decide, by decide, by decide, by decide, by decide, by decide⟩

/-- The poll trace of the C5 counterexample: a successful read of size 5,
then one failed read (`OSError`), then successful reads of size 5. -/
def obsFlaky (i : Nat) : Option Nat := if i = 1 then none else some 5

/-- Claim C5's "only when the size has been observed identical across two
consecutive polls" is false as stated: with the trace size-5 / OSError /
size-5 the wait succeeds at the third poll, although no two consecutive
polls observed identical sizes (the middle poll observed no size at all —
an `OSError` poll is retried without updating `historical_size`). -/
theorem c5_consecutive_polls_counterexample :
    wait_for_file_ready obsFlaky 3 0 (-1) = true ∧
    obsFlaky 0 = some 5 ∧ obsFlaky 1 = none ∧ obsFlaky 2 = some 5 := by
  exact ⟨by decide, by decide, by decide, by decide⟩

/-- Claim C5 amended: (a) a file whose observed size changes on every
poll throughout the window fails the wait, and the pipeline then makes no
inference call, performs no rename, leaves the filesystem unchanged and
logs the timeout; (b) the wait succeeds only when some size s > 0 was
returned by two *successful* polls with every poll in between failing to
read a size (for an error-free trace these are two consecutive polls). -/
theorem c5_stability_amended (obs : Nat → Option Nat) (szs : Nat → Nat)
    (fuel : Nat) (fs : List (List Nat)) (filepath desc : List Nat) :
    ((∀ j, obs j = some (szs j)) → (∀ j, szs (j + 1) ≠ szs j) →
      wait_for_file_ready obs fuel 0 (-1) = false ∧
      (process_file_run obs fuel fs filepath desc).timedOut = true ∧
      (process_file_run obs fuel fs filepath desc).aiCalled = false ∧
      (process_file_run obs fuel fs filepath desc).renameCalls = 0 ∧
      (process_file_run obs fuel fs filepath desc).fs = fs) ∧
    (wait_for_file_ready obs fuel 0 (-1) = true →
      ∃ k j s, k < j ∧ obs k = some s ∧ obs j = some s ∧ 0 < s ∧
        ∀ m, k < m → m < j → obs m = none) := by
  constructor
  · intro hobs hch
    have hfail : wait_for_file_ready obs fuel 0 (-1) = false :=
      wait_fails_of_changing obs szs hobs hch fuel 0 (-1) (by
        intro hc
        have : ((szs 0 : Int)) < 0 := hc ▸ (by omega : (-1 : Int) < 0)
        omega)
    refine ⟨hfail, ?_, ?_, ?_, ?_⟩ <;> rw [process_file_run, if_neg (by rw [hfail]; simp)]
  · intro h
    rcases wait_success_shape obs fuel 0 (-1) h with ⟨j, s, _, _, _, hhist, _⟩ |
      ⟨k, j, s, _, hkj, hks, hjs, hs, hbet⟩
    · exfalso
      have : ((s : Int)) < 0 := hhist ▸ (by omega : (-1 : Int) < 0)
      omega
    · exact ⟨k, j, s, hkj, hks, hjs, hs, hbet⟩

/-- Witness for claim C5: the changes-every-poll branch at the trace
`obs i = some i`, and the success-shape branch at the flaky trace. -/
theorem c5_stability_amended_witness :
    wait_for_file_ready (fun i => some i) 3 0 (-1) = false ∧
    (∃ k j s, k < j ∧ obsFlaky k = some s ∧ obsFlaky j = some s ∧ 0 < s ∧
      ∀ m, k < m → m < j → obsFlaky m = none) :=
  ⟨((c5_stability_amended (fun i => some i) (fun i => i) 3 [] [] []).1
      (fun _ => rfl) (fun j => Nat.succ_ne_self j)).1,
   (c5_stability_amended obsFlaky (fun _ => 0) 3 [] [] []).2 (by decide)⟩

/-! ### The process supervisor (`__main__`, src/main.py 149-176) -/

/-- Model of the `__main__` block: if `ollama.list()` raises, print a
diagnostic and `exit(1)`; if the watch folder is unreadable, print a
diagnostic and `exit(1)`; otherwise watch until `KeyboardInterrupt`,
which is caught, the observer stopped, the pool shut down, and the script
ends normally — exit status 0, no diagnostic.  Result: (exit status,
whether a diagnostic message was emitted before exiting). -/
def main_run (ollamaOk dirReadable : Bool) : Nat × Bool :=
  if !ollamaOk then (1, true)
  else if !dirReadable then (1, true)
  else (0, false)

/-- Claim C8: exit status 0 on graceful interrupt-driven shutdown, and a
non-zero exit status with a diagnostic emitted when the inference service
is unreachable or the watch directory is unreadable. -/
theorem c8_exit_codes :
    (∀ d : Bool, main_run false d = (1, true) ∧ (main_run false d).1 ≠ 0) ∧
    (main_run true false = (1, true) ∧ (main_run true false).1 ≠ 0) ∧
    main_run true true = (0, false) := by
  exact ⟨fun d => by cases d <;> exact ⟨rfl, by decide⟩, ⟨rfl, by decide⟩, rfl⟩
